import Mathlib

/-! Verification of `HandleOutput` (examples/hello_world/arduino_output_handler.cpp).

The handler computes `(int)(127.5f * (y_value + 1))` in single precision, clamps the
integer to `[0, 255]`, writes it to the LED pin and logs the unclamped integer.

The embedding has three layers:

* `F32`   : IEEE-754 binary32 data with round-to-nearest-even `add` and `mul`, and the
            C++ float-to-int conversion (undefined when the truncated value does not fit);
* `brightness`, `clampBrightness` : the arithmetic of lines 43 and 47;
* `HandleOutput`, `runCalls` : the stateful procedure with its trace of platform calls.

Conventions: `float` is binary32 and expressions of type `float` are evaluated in single
precision, rounding to nearest, ties to even; `int` has 32 bits; a float-to-int conversion
whose truncated value is not representable is undefined in C++; the call still runs to
its end, and the integer such a conversion leaves in `brightness` is whatever the target
produces, a parameter of the platform.
-/

namespace OutputHandler

/-! ## IEEE-754 binary32 -/

/-- A binary32 datum.  Every finite binary32 value is an integer multiple of `2^-149`
(the smallest subnormal), so a finite value is stored as a sign and a magnitude `k`
standing for `k * 2^-149`.  The sign is kept apart so that `-0.0` exists. -/
inductive F32
  | nan
  | inf (neg : Bool)
  | fin (neg : Bool) (k : Nat)
  deriving DecidableEq

namespace F32

/-- Decoding of a 32-bit pattern: 1 sign bit, 8 exponent bits, 23 fraction bits. -/
def ofBits (b : Nat) : F32 :=
  let neg := decide ((b / 2 ^ 31) % 2 = 1)
  let e := (b / 2 ^ 23) % 256
  let f := b % 2 ^ 23
  if e = 255 then (if f = 0 then inf neg else nan)
  else if e = 0 then fin neg f
  else fin neg ((2 ^ 23 + f) * 2 ^ (e - 1))

/-- Signed magnitude of a finite datum in units of `2^-149` (zero for NaN and infinities). -/
def sval : F32 → Int
  | fin neg k => if neg then -(k : Int) else (k : Int)
  | _ => 0

/-- The exact rational value of a finite datum (zero for NaN and infinities). -/
def toRat (f : F32) : ℚ := (f.sval : ℚ) / 2 ^ 149

/-- Round-half-to-even of `n / 2^s`. -/
def rne (n s : Nat) : Nat :=
  let q := n / 2 ^ s
  let r := n % 2 ^ s
  if 2 * r < 2 ^ s then q
  else if 2 ^ s < 2 * r then q + 1
  else if q % 2 = 0 then q else q + 1

/-- Bit length by repeated halving; `fuel` bounds the number of halvings. -/
def bitLengthAux : Nat → Nat → Nat
  | 0, _ => 0
  | fuel + 1, n => if n = 0 then 0 else bitLengthAux fuel (n / 2) + 1

/-- Bit length of a natural number: the least `L` with `n < 2^L`. -/
def bitLength (n : Nat) : Nat := bitLengthAux n n

/-- Number of low bits dropped when the magnitude `N * 2^-(149+d)` is rounded: at least
`d` (the least unit of binary32 is `2^-149`), and enough to leave 24 significant bits. -/
def dropBits (N d : Nat) : Nat := max d (bitLength N - 24)

/-- Rounding of the exact magnitude `N * 2^-(149+d)` to 24 significant bits with least
unit `2^-149`, round-to-nearest-even, exponent unbounded above.  The result is in units
of `2^-149`. -/
def roundUnbounded (N d : Nat) : Nat :=
  rne N (dropBits N d) * 2 ^ (dropBits N d - d)

/-- Rounding of the exact magnitude `N * 2^-(149+d)` to binary32; `none` is overflow
(the rounded magnitude reaches `2^128`). -/
def roundMag (N d : Nat) : Option Nat :=
  if roundUnbounded N d < 2 ^ 128 * 2 ^ 149 then some (roundUnbounded N d) else none

/-- Single-precision addition. -/
def add : F32 → F32 → F32
  | nan, _ => nan
  | _, nan => nan
  | inf a, inf b => if a = b then inf a else nan
  | inf a, fin _ _ => inf a
  | fin _ _, inf b => inf b
  | fin a j, fin b k =>
    let s : Int := sval (fin a j) + sval (fin b k)
    if s = 0 then fin (a && b) 0
    else
      match roundMag s.natAbs 0 with
      | some r => fin (decide (s < 0)) r
      | none => inf (decide (s < 0))

/-- Single-precision multiplication. -/
def mul : F32 → F32 → F32
  | nan, _ => nan
  | _, nan => nan
  | inf a, inf b => inf (xor a b)
  | inf a, fin b k => if k = 0 then nan else inf (xor a b)
  | fin a j, inf b => if j = 0 then nan else inf (xor a b)
  | fin a j, fin b k =>
    match roundMag (j * k) 149 with
    | some r => fin (xor a b) r
    | none => inf (xor a b)

/-- The sign bit of an infinite or finite datum (`false` for NaN). -/
def signBit : F32 → Bool
  | nan => false
  | inf neg => neg
  | fin neg _ => neg

/-- Ordered comparison `a < b` of IEEE-754 (false when either side is NaN; `-0 = +0`). -/
def lt : F32 → F32 → Bool
  | fin a j, fin b k => decide (sval (fin a j) < sval (fin b k))
  | inf true, fin _ _ => true
  | inf true, inf false => true
  | fin _ _, inf false => true
  | _, _ => false

/-- Ordered comparison `a ≤ b` of IEEE-754 (false when either side is NaN). -/
def le : F32 → F32 → Bool
  | fin a j, fin b k => decide (sval (fin a j) ≤ sval (fin b k))
  | inf true, fin _ _ => true
  | inf true, inf _ => true
  | fin _ _, inf false => true
  | inf false, inf false => true
  | _, _ => false

end F32

/-- Least value of the 32-bit `int` of the target. -/
def INT_MIN : Int := -2147483648

/-- Greatest value of the 32-bit `int` of the target. -/
def INT_MAX : Int := 2147483647

/-- The conversion `(int) f`: the fractional part is discarded (truncation toward zero);
the behaviour is undefined (`none`) when `f` is NaN, infinite, or the truncated value is
not representable in `int`. -/
def F32.toInt : F32 → Option Int
  | F32.fin neg k =>
    let t : Int := ((k / 2 ^ 149 : Nat) : Int)
    let v : Int := if neg then -t else t
    if INT_MIN ≤ v ∧ v ≤ INT_MAX then some v else none
  | _ => none

/-- The literal `127.5f` (bit pattern `0x42FF0000`). -/
def c127_5 : F32 := F32.fin false (255 * 2 ^ 148)

/-- The `int` literal `1` converted to `float` (bit pattern `0x3F800000`). -/
def one : F32 := F32.fin false (2 ^ 149)

/-- Line 43: `int brightness = (int)(127.5f * (y_value + 1));`. -/
def brightness (y_value : F32) : Option Int :=
  (F32.mul c127_5 (F32.add y_value one)).toInt

/-- Line 47: `std::min(255, std::max(0, brightness))`. -/
def clampBrightness (b : Int) : Int := min 255 (max 0 b)

/-! ## The procedure and its platform calls -/

/-- What the target supplies: the constants of `Arduino.h` used by the handler, and the
integer that a float-to-int conversion produces when C++ leaves it undefined (operand NaN,
infinite, or out of the range of `int`). -/
structure Platform where
  LED_BUILTIN : Int
  OUTPUT : Int
  undefinedCast : F32 → Int

/-- Calls made to the platform, in program order. -/
inductive Event
  | pinMode (pin mode : Int)
  | analogWrite (pin value : Int)
  | MicroPrintf (value : Int)
  | delay (ms : Nat)
  deriving DecidableEq

/-- The two globals of the translation unit (lines 24 and 28). -/
structure Globals where
  led : Int
  initialized : Bool
  deriving DecidableEq

/-- Values of the globals at program start: `led = LED_BUILTIN`, `initialized = false`. -/
def initialGlobals (p : Platform) : Globals :=
  { led := p.LED_BUILTIN, initialized := false }

/-- Result of running code: the globals and the platform calls made, in order. -/
structure Outcome where
  globals : Globals
  trace : List Event
  deriving DecidableEq

/-- The integer stored in `brightness` by line 43 on the target `p`: the converted value
when the conversion is defined, and what the target produces otherwise. -/
def brightnessOn (p : Platform) (y_value : F32) : Int :=
  match brightness y_value with
  | some b => b
  | none => p.undefinedCast (F32.mul c127_5 (F32.add y_value one))

set_option linter.unusedVariables false in
/-- Lines 32-57: `void HandleOutput(float x_value, float y_value)`; `x_value` is not used
by the body. -/
def HandleOutput (p : Platform) (g : Globals) (x_value y_value : F32) : Outcome :=
  let init : Globals × List Event :=
    if !g.initialized then
      ({ g with initialized := true }, [Event.pinMode g.led p.OUTPUT])
    else (g, [])
  let brightness : Int := brightnessOn p y_value
  let brightness_clamped : Int := clampBrightness brightness
  { globals := init.1
    trace := init.2 ++
      [Event.analogWrite init.1.led brightness_clamped, Event.MicroPrintf brightness,
        Event.delay 33] }

/-- Consecutive calls of `HandleOutput`, one per pair `(x_value, y_value)`. -/
def runCalls (p : Platform) : Globals → List (F32 × F32) → Outcome
  | g, [] => { globals := g, trace := [] }
  | g, a :: rest =>
    let o := HandleOutput p g a.1 a.2
    let o2 := runCalls p o.globals rest
    { globals := o2.globals, trace := o.trace ++ o2.trace }

/-- Values passed to `analogWrite`, in order. -/
def writtenValues : List Event → List Int
  | [] => []
  | Event.analogWrite _ v :: t => v :: writtenValues t
  | _ :: t => writtenValues t

/-- Values passed to `MicroPrintf`, in order. -/
def loggedValues : List Event → List Int
  | [] => []
  | Event.MicroPrintf v :: t => v :: loggedValues t
  | _ :: t => loggedValues t

/-- Recogniser of channel-configuration calls. -/
def Event.isPinMode : Event → Bool
  | Event.pinMode _ _ => true
  | _ => false

/-- Recogniser of channel writes. -/
def Event.isAnalogWrite : Event → Bool
  | Event.analogWrite _ _ => true
  | _ => false

/-! ## Constants used to state the properties -/

/-- A target with `LED_BUILTIN = 13` and `OUTPUT = 1` whose conversion instruction
returns `INT_MIN` for every operand that is NaN, infinite or out of range (as the x86
`cvttss2si` does). -/
def exampleBoard : Platform :=
  { LED_BUILTIN := 13, OUTPUT := 1, undefinedCast := fun _ => INT_MIN }

/-- A target with `LED_BUILTIN = 13` and `OUTPUT = 1` whose conversion instruction
saturates: NaN gives 0, operands below the range give `INT_MIN`, above it `INT_MAX`
(as the Arm `vcvt` does). -/
def saturatingBoard : Platform :=
  { LED_BUILTIN := 13, OUTPUT := 1,
    undefinedCast := fun f =>
      match f with
      | F32.nan => 0
      | F32.inf neg => if neg then INT_MIN else INT_MAX
      | F32.fin neg _ => if neg then INT_MIN else INT_MAX }

/-- The target never produces a positive integer when an undefined conversion has an
operand whose sign bit is set. -/
def Platform.negativeCastNonpos (p : Platform) : Prop :=
  ∀ f : F32, f.signBit = true → p.undefinedCast f ≤ 0

/-- The value `-1.0f`. -/
def minusOne : F32 := F32.ofBits 0xBF800000

/-- The value `0.0f`. -/
def zero : F32 := F32.ofBits 0x00000000

/-- The value `5.0f`. -/
def five : F32 := F32.ofBits 0x40A00000

/-- The value `-3.0f`. -/
def minusThree : F32 := F32.ofBits 0xC0400000

/-- The value `-0.5f`. -/
def minusHalf : F32 := F32.ofBits 0xBF000000

/-- The value `33554432.0f`, that is `2^25`. -/
def twoPow25 : F32 := F32.ofBits 0x4C000000

/-- The value `-33554432.0f`, that is `-2^25`. -/
def minusTwoPow25 : F32 := F32.ofBits 0xCC000000

/-- The value `16777216.0f`, that is `2^24`. -/
def twoPow24 : F32 := F32.ofBits 0x4B800000

/-- The value `-16777216.0f`, that is `-2^24`. -/
def minusTwoPow24 : F32 := F32.ofBits 0xCB800000

/-- The value `2147483648.0f`, that is `2^31`. -/
def twoPow31 : F32 := F32.ofBits 0x4F000000

/-- The value `+∞`. -/
def plusInfinity : F32 := F32.ofBits 0x7F800000

/-- A quiet NaN. -/
def quietNaN : F32 := F32.ofBits 0x7FC00000

/-- Three consecutive calls; the conversion of the second is undefined. -/
def exampleCalls : List (F32 × F32) :=
  [(zero, five), (zero, twoPow25), (zero, minusHalf)]

/-- Truncation toward zero of a rational number: the fractional part is discarded. -/
def truncTowardZero (p : ℚ) : Int := if 0 ≤ p then ⌊p⌋ else ⌈p⌉

/-- The intensity as the specification words it: `round(127.5 * (y + 1))` over exact
arithmetic, rounding to the nearest integer. -/
def specIntensity (y : ℚ) : Int := round ((255 / 2 : ℚ) * (y + 1))


/-! ## Rounding lemmas -/

namespace F32

theorem bitLengthAux_le_iff (k : Nat) : ∀ (fuel n : Nat), n ≤ fuel →
    (bitLengthAux fuel n ≤ k ↔ n < 2 ^ k) := by
  induction k with
  | zero =>
    intro fuel n h
    cases fuel with
    | zero =>
      have : n = 0 := by omega
      subst this
      simp [bitLengthAux]
    | succ f =>
      simp only [bitLengthAux]
      split_ifs with h0
      · subst h0; simp
      · simp; omega
  | succ k ih =>
    intro fuel n h
    cases fuel with
    | zero =>
      have : n = 0 := by omega
      subst this
      simp [bitLengthAux]
    | succ f =>
      simp only [bitLengthAux]
      split_ifs with h0
      · subst h0; simp
      · have h2 : n / 2 ≤ f := by omega
        have := ih f (n / 2) h2
        rw [Nat.add_le_add_iff_right, this, pow_succ]
        omega

theorem bitLength_le_iff (n k : Nat) : bitLength n ≤ k ↔ n < 2 ^ k :=
  bitLengthAux_le_iff k n n le_rfl

theorem lt_two_pow_bitLength (n : Nat) : n < 2 ^ bitLength n :=
  (bitLength_le_iff n _).1 le_rfl

theorem two_pow_le_of_lt_bitLength {n k : Nat} (h : k < bitLength n) : 2 ^ k ≤ n := by
  by_contra hc
  have := (bitLength_le_iff n k).2 (by omega)
  omega

theorem bitLength_mono {a b : Nat} (h : a ≤ b) : bitLength a ≤ bitLength b :=
  (bitLength_le_iff a _).2 (lt_of_le_of_lt h (lt_two_pow_bitLength b))

theorem rne_mono {a b : Nat} (s : Nat) (h : a ≤ b) : rne a s ≤ rne b s := by
  have hP : 0 < 2 ^ s := Nat.pow_pos (by decide)
  have hq : a / 2 ^ s ≤ b / 2 ^ s := Nat.div_le_div_right h
  have ha := Nat.div_add_mod a (2 ^ s)
  have hb := Nat.div_add_mod b (2 ^ s)
  have hra := Nat.mod_lt a hP
  have hrb := Nat.mod_lt b hP
  simp only [rne]
  rcases Nat.lt_or_ge (a / 2 ^ s) (b / 2 ^ s) with hlt | hge
  · split_ifs <;> omega
  · have heq : a / 2 ^ s = b / 2 ^ s := le_antisymm hq hge
    rw [heq] at ha ⊢
    split_ifs <;> omega

theorem rne_mul_pow (m s : Nat) : rne (m * 2 ^ s) s = m := by
  have hP : 0 < 2 ^ s := Nat.pow_pos (by decide)
  simp [rne, Nat.mul_div_cancel _ hP, hP]

/-- The rounded quotient is a nearest integer: it is within half a unit of `n / 2^s`. -/
theorem rne_nearest (n s : Nat) :
    2 * (rne n s * 2 ^ s) ≤ 2 * n + 2 ^ s ∧ 2 * n ≤ 2 * (rne n s * 2 ^ s) + 2 ^ s := by
  have hP : 0 < 2 ^ s := Nat.pow_pos (by decide)
  have hn := Nat.div_add_mod n (2 ^ s)
  have hr := Nat.mod_lt n hP
  have h0 : n / 2 ^ s * 2 ^ s = 2 ^ s * (n / 2 ^ s) := Nat.mul_comm _ _
  have h1 : (n / 2 ^ s + 1) * 2 ^ s = 2 ^ s * (n / 2 ^ s) + 2 ^ s := by ring
  simp only [rne]
  split_ifs <;> constructor <;> omega

/-- The rounded quotient has at most 24 significant bits when the dropped bits leave 24. -/
theorem rne_le_of_lt {n s t : Nat} (h : n < 2 ^ t * 2 ^ s) : rne n s ≤ 2 ^ t := by
  have := rne_mono s (le_of_lt h)
  rwa [rne_mul_pow] at this

/-- The result of rounding has at most 24 significant bits: it is `m * 2^e` with
`m ≤ 2^24`. -/
theorem roundUnbounded_significand (N d : Nat) :
    ∃ m, m ≤ 2 ^ 24 ∧ roundUnbounded N d = m * 2 ^ (dropBits N d - d) := by
  refine ⟨rne N (dropBits N d), rne_le_of_lt ?_, rfl⟩
  have h1 := lt_two_pow_bitLength N
  have h2 : 2 ^ bitLength N ≤ 2 ^ (24 + dropBits N d) :=
    Nat.pow_le_pow_right (by decide) (by simp only [dropBits]; omega)
  rw [← pow_add]
  omega

/-- The result of rounding is within half a unit in the last place of the exact value
`N * 2^-(149+d)`; both sides are scaled by `2^(149+d)`. -/
theorem roundUnbounded_nearest (N d : Nat) :
    2 * (roundUnbounded N d * 2 ^ d) ≤ 2 * N + 2 ^ dropBits N d
      ∧ 2 * N ≤ 2 * (roundUnbounded N d * 2 ^ d) + 2 ^ dropBits N d := by
  have hd : d ≤ dropBits N d := by simp only [dropBits]; omega
  have h : roundUnbounded N d * 2 ^ d = rne N (dropBits N d) * 2 ^ dropBits N d := by
    rw [roundUnbounded, Nat.mul_assoc, ← pow_add, Nat.sub_add_cancel hd]
  rw [h]
  exact rne_nearest N _

/-- A magnitude with at most 24 significant bits is left unchanged by rounding. -/
theorem roundUnbounded_exact {m t d : Nat} (hm : m < 2 ^ 24) (ht : d ≤ t) :
    roundUnbounded (m * 2 ^ t) d = m * 2 ^ (t - d) := by
  have hd : d ≤ dropBits (m * 2 ^ t) d := by simp only [dropBits]; omega
  have hL : bitLength (m * 2 ^ t) ≤ 24 + t := by
    rw [bitLength_le_iff, pow_add]
    exact Nat.mul_lt_mul_of_pos_right hm (Nat.pow_pos (by decide))
  have hs : dropBits (m * 2 ^ t) d ≤ t := by simp only [dropBits]; omega
  have hsplit : m * 2 ^ t = m * 2 ^ (t - dropBits (m * 2 ^ t) d) * 2 ^ dropBits (m * 2 ^ t) d := by
    rw [Nat.mul_assoc, ← pow_add, Nat.sub_add_cancel hs]
  rw [roundUnbounded]
  generalize dropBits (m * 2 ^ t) d = s at hd hs hsplit ⊢
  rw [hsplit, rne_mul_pow, Nat.mul_assoc, ← pow_add]
  congr 2
  omega

theorem roundUnbounded_mono {a b : Nat} (d : Nat) (h : a ≤ b) :
    roundUnbounded a d ≤ roundUnbounded b d := by
  have hL := bitLength_mono h
  simp only [roundUnbounded]
  rcases Nat.lt_or_ge (dropBits a d) (dropBits b d) with hlt | hge
  · -- the results lie in different binades, separated by a power of two
    have hsb : dropBits b d = bitLength b - 24 := by
      simp only [dropBits] at hlt ⊢; omega
    have hd : d ≤ dropBits a d := by simp only [dropBits]; omega
    have hLa : bitLength a ≤ dropBits b d + 23 := by
      simp only [dropBits] at hlt; omega
    have ha : a ≤ 2 ^ (dropBits b d + 23 - dropBits a d) * 2 ^ dropBits a d := by
      rw [← pow_add]
      have h1 := lt_two_pow_bitLength a
      have h2 : 2 ^ bitLength a ≤ 2 ^ (dropBits b d + 23 - dropBits a d + dropBits a d) :=
        Nat.pow_le_pow_right (by decide) (by omega)
      omega
    have hb : 2 ^ 23 * 2 ^ dropBits b d ≤ b := by
      rw [← pow_add]
      exact two_pow_le_of_lt_bitLength (by omega)
    have h1 := rne_mono (dropBits a d) ha
    rw [rne_mul_pow] at h1
    have h2 := rne_mono (dropBits b d) hb
    rw [rne_mul_pow] at h2
    calc rne a (dropBits a d) * 2 ^ (dropBits a d - d)
        ≤ 2 ^ (dropBits b d + 23 - dropBits a d) * 2 ^ (dropBits a d - d) :=
          Nat.mul_le_mul_right _ h1
      _ = 2 ^ 23 * 2 ^ (dropBits b d - d) := by
          rw [← pow_add, ← pow_add]; congr 1; omega
      _ ≤ rne b (dropBits b d) * 2 ^ (dropBits b d - d) := Nat.mul_le_mul_right _ h2
  · have heq : dropBits a d = dropBits b d := by
      simp only [dropBits] at hge ⊢; omega
    rw [heq]
    exact Nat.mul_le_mul_right _ (rne_mono _ h)

/-- Every finite datum decoded from a bit pattern has at most 24 significant bits and is
below `2^128`. -/
theorem ofBits_fin (b : Nat) {n : Bool} {k : Nat} (h : ofBits b = fin n k) :
    ∃ m t, m < 2 ^ 24 ∧ t ≤ 253 ∧ k = m * 2 ^ t := by
  simp only [ofBits] at h
  have hf : b % 2 ^ 23 < 2 ^ 23 := Nat.mod_lt _ (by decide)
  have he : b / 2 ^ 23 % 256 < 256 := Nat.mod_lt _ (by decide)
  split_ifs at h with h1 h2 h3
  · simp only [fin.injEq] at h
    exact ⟨b % 2 ^ 23, 0, by omega, by omega, by omega⟩
  · simp only [fin.injEq] at h
    exact ⟨2 ^ 23 + b % 2 ^ 23, b / 2 ^ 23 % 256 - 1, by omega, by omega, h.2.symm⟩

/-- Every finite datum decoded from a bit pattern is left unchanged by rounding. -/
theorem roundMag_ofBits (b : Nat) {n : Bool} {k : Nat} (h : ofBits b = fin n k) :
    roundMag k 0 = some k := by
  obtain ⟨m, t, hm, ht, rfl⟩ := ofBits_fin b h
  have hx := roundUnbounded_exact hm (Nat.zero_le t)
  rw [Nat.sub_zero] at hx
  have hlt : m * 2 ^ t < 2 ^ 128 * 2 ^ 149 := by
    have h1 : m * 2 ^ t < 2 ^ 24 * 2 ^ t := Nat.mul_lt_mul_of_pos_right hm (Nat.pow_pos (by decide))
    have h2 : 2 ^ 24 * 2 ^ t ≤ 2 ^ 24 * 2 ^ 253 :=
      Nat.mul_le_mul_left _ (Nat.pow_le_pow_right (by decide) ht)
    have h3 : 2 ^ 24 * 2 ^ 253 = 2 ^ 128 * 2 ^ 149 := by rw [← pow_add, ← pow_add]
    omega
  rw [roundMag, hx, if_pos hlt]

theorem roundMag_mono {a b d rb : Nat} (h : a ≤ b) (hb : roundMag b d = some rb) :
    ∃ ra, roundMag a d = some ra ∧ ra ≤ rb := by
  have hm := roundUnbounded_mono d h
  simp only [roundMag] at hb ⊢
  split_ifs at hb with h1
  simp only [Option.some.injEq] at hb
  subst hb
  exact ⟨roundUnbounded a d, by rw [if_pos (lt_of_le_of_lt hm h1)], hm⟩

theorem roundMag_mono_some {a b d ra rb : Nat} (h : a ≤ b) (ha : roundMag a d = some ra)
    (hb : roundMag b d = some rb) : ra ≤ rb := by
  obtain ⟨r, hr, hle⟩ := roundMag_mono h hb
  rw [ha] at hr
  simp only [Option.some.injEq] at hr
  omega

end F32

/-! ## The arithmetic of line 43 on finite inputs -/

theorem roundMag_zero : F32.roundMag 0 0 = some 0 := by decide

set_option maxRecDepth 100000 in
set_option exponentiation.threshold 1024 in
theorem roundMag_two : F32.roundMag (2 ^ 150) 0 = some (2 ^ 150) := by decide

set_option maxRecDepth 100000 in
set_option exponentiation.threshold 1024 in
theorem roundMag_255 :
    F32.roundMag (255 * 2 ^ 148 * 2 ^ 150) 149 = some (255 * 2 ^ 149) := by decide

/-- The sum `y_value + 1` when it is not negative. -/
theorem add_one_nonneg {n : Bool} {k r : Nat}
    (h : 0 ≤ F32.sval (F32.fin n k) + 2 ^ 149)
    (hr : F32.roundMag (F32.sval (F32.fin n k) + 2 ^ 149).toNat 0 = some r) :
    F32.add (F32.fin n k) one = F32.fin false r := by
  simp only [F32.add, one]
  have hs : F32.sval (F32.fin false (2 ^ 149)) = 2 ^ 149 := by simp [F32.sval]
  rw [hs]
  split_ifs with h0
  · rw [h0] at hr
    simp only [Int.toNat_zero, roundMag_zero, Option.some.injEq] at hr
    subst hr
    simp
  · have hn : (F32.sval (F32.fin n k) + 2 ^ 149).natAbs
        = (F32.sval (F32.fin n k) + 2 ^ 149).toNat := by omega
    rw [hn, hr]
    simp only [F32.fin.injEq, decide_eq_false_iff_not, and_true]
    omega

/-- The sum `y_value + 1` when it is negative: a negative number or `-∞`. -/
theorem add_one_neg {n : Bool} {k : Nat} (h : F32.sval (F32.fin n k) + 2 ^ 149 < 0) :
    (∃ r, F32.add (F32.fin n k) one = F32.fin true r)
      ∨ F32.add (F32.fin n k) one = F32.inf true := by
  simp only [F32.add, one]
  have hs : F32.sval (F32.fin false (2 ^ 149)) = 2 ^ 149 := by simp [F32.sval]
  rw [hs]
  rw [if_neg (by omega)]
  have hd : decide (F32.sval (F32.fin n k) + 2 ^ 149 < 0) = true := decide_eq_true h
  rw [hd]
  cases hm : F32.roundMag (F32.sval (F32.fin n k) + 2 ^ 149).natAbs 0 with
  | none => right; rfl
  | some r => left; exact ⟨r, rfl⟩

theorem mul_fin_fin_some {a b : Bool} {j k r : Nat} (h : F32.roundMag (j * k) 149 = some r) :
    F32.mul (F32.fin a j) (F32.fin b k) = F32.fin (xor a b) r := by
  unfold F32.mul
  simp only [h]

theorem mul_fin_fin_none {a b : Bool} {j k : Nat} (h : F32.roundMag (j * k) 149 = none) :
    F32.mul (F32.fin a j) (F32.fin b k) = F32.inf (xor a b) := by
  unfold F32.mul
  simp only [h]

theorem mul_fin_inf (a b : Bool) (j : Nat) :
    F32.mul (F32.fin a j) (F32.inf b) = if j = 0 then F32.nan else F32.inf (xor a b) := by
  unfold F32.mul
  simp only

/-- The product `127.5f * f` for finite `f` that does not overflow. -/
theorem mul_c127_5_fin {n : Bool} {r q : Nat}
    (h : F32.roundMag (255 * 2 ^ 148 * r) 149 = some q) :
    F32.mul c127_5 (F32.fin n r) = F32.fin n q := by
  rw [c127_5, mul_fin_fin_some h]
  simp only [Bool.false_xor]

/-- The product `127.5f * f` for finite `f` that overflows. -/
theorem mul_c127_5_fin_none {n : Bool} {r : Nat}
    (h : F32.roundMag (255 * 2 ^ 148 * r) 149 = none) :
    F32.mul c127_5 (F32.fin n r) = F32.inf n := by
  rw [c127_5, mul_fin_fin_none h]
  simp only [Bool.false_xor]

theorem mul_c127_5_inf (n : Bool) : F32.mul c127_5 (F32.inf n) = F32.inf n := by
  have h0 : 255 * 2 ^ 148 ≠ 0 := Nat.mul_ne_zero (by decide) (pow_ne_zero _ (by decide))
  rw [c127_5, mul_fin_inf, if_neg h0]
  simp only [Bool.false_xor]

/-- The conversion of a non-negative finite value. -/
theorem toInt_fin_false (q : Nat) :
    F32.toInt (F32.fin false q)
      = if ((q / 2 ^ 149 : Nat) : Int) ≤ INT_MAX then some ((q / 2 ^ 149 : Nat) : Int)
        else none := by
  unfold F32.toInt
  have h0 : INT_MIN ≤ ((q / 2 ^ 149 : Nat) : Int) := by
    have : (0 : Int) ≤ ((q / 2 ^ 149 : Nat) : Int) := Int.ofNat_nonneg _
    simp only [INT_MIN]; omega
  simp only [Bool.false_eq_true, if_false, h0, true_and]

/-- The conversion of a negative finite value, when it is defined, is not positive. -/
theorem toInt_fin_true_nonpos {q : Nat} {b : Int} (h : F32.toInt (F32.fin true q) = some b) :
    b ≤ 0 := by
  unfold F32.toInt at h
  simp only [if_true] at h
  split_ifs at h
  simp only [Option.some.injEq] at h
  have : (0 : Int) ≤ ((q / 2 ^ 149 : Nat) : Int) := Int.ofNat_nonneg _
  omega

/-- Line 43 when `y_value + 1` is not negative and nothing overflows. -/
theorem brightness_of_nonneg {n : Bool} {k r q : Nat}
    (h : 0 ≤ F32.sval (F32.fin n k) + 2 ^ 149)
    (hr : F32.roundMag (F32.sval (F32.fin n k) + 2 ^ 149).toNat 0 = some r)
    (hq : F32.roundMag (255 * 2 ^ 148 * r) 149 = some q) :
    brightness (F32.fin n k)
      = if ((q / 2 ^ 149 : Nat) : Int) ≤ INT_MAX then some ((q / 2 ^ 149 : Nat) : Int)
        else none := by
  rw [brightness, add_one_nonneg h hr, mul_c127_5_fin hq, toInt_fin_false]

/-- On `-1 ≤ y_value ≤ 1` line 43 is defined; its value is described by the two roundings. -/
theorem brightness_nominal {n : Bool} {k : Nat}
    (hlo : -(2 ^ 149) ≤ F32.sval (F32.fin n k)) (hhi : F32.sval (F32.fin n k) ≤ 2 ^ 149) :
    ∃ r q, F32.roundMag (F32.sval (F32.fin n k) + 2 ^ 149).toNat 0 = some r
      ∧ F32.roundMag (255 * 2 ^ 148 * r) 149 = some q
      ∧ q / 2 ^ 149 ≤ 255
      ∧ brightness (F32.fin n k) = some ((q / 2 ^ 149 : Nat) : Int) := by
  have hS : (F32.sval (F32.fin n k) + 2 ^ 149).toNat ≤ 2 ^ 150 := by omega
  obtain ⟨r, hr, hr2⟩ := F32.roundMag_mono hS roundMag_two
  have hP : 255 * 2 ^ 148 * r ≤ 255 * 2 ^ 148 * 2 ^ 150 := Nat.mul_le_mul_left _ hr2
  obtain ⟨q, hq, hq2⟩ := F32.roundMag_mono hP roundMag_255
  have hd : q / 2 ^ 149 ≤ 255 := by omega
  refine ⟨r, q, hr, hq, hd, ?_⟩
  rw [brightness_of_nonneg (by omega) hr hq, if_pos]
  simp only [INT_MAX]
  omega

/-- The sum `y_value + 1` when it is positive and too large for binary32. -/
theorem add_one_overflow {n : Bool} {k : Nat}
    (h : 0 < F32.sval (F32.fin n k) + 2 ^ 149)
    (hr : F32.roundMag (F32.sval (F32.fin n k) + 2 ^ 149).toNat 0 = none) :
    F32.add (F32.fin n k) one = F32.inf false := by
  simp only [F32.add, one]
  have hs : F32.sval (F32.fin false (2 ^ 149)) = 2 ^ 149 := by simp [F32.sval]
  rw [hs, if_neg (by omega)]
  have hn : (F32.sval (F32.fin n k) + 2 ^ 149).natAbs
      = (F32.sval (F32.fin n k) + 2 ^ 149).toNat := by omega
  rw [hn, hr]
  simp only [F32.inf.injEq, decide_eq_false_iff_not]
  omega

theorem add_inf_one (n : Bool) : F32.add (F32.inf n) one = F32.inf n := by
  simp only [F32.add, one]

theorem toInt_inf (n : Bool) : F32.toInt (F32.inf n) = none := by
  unfold F32.toInt
  simp only

theorem brightness_inf (n : Bool) : brightness (F32.inf n) = none := by
  rw [brightness, add_inf_one, mul_c127_5_inf, toInt_inf]

theorem brightness_nan : brightness F32.nan = none := by
  have h1 : F32.add F32.nan one = F32.nan := by simp only [F32.add]
  have h2 : F32.mul c127_5 F32.nan = F32.nan := by
    unfold F32.mul c127_5
    simp only
  rw [brightness, h1, h2]
  unfold F32.toInt
  simp only

theorem minusOne_eq : minusOne = F32.fin true (2 ^ 149) := by decide

theorem sval_fin_true (k : Nat) : F32.sval (F32.fin true k) = -(k : Int) := by
  simp only [F32.sval, if_true]

theorem sval_fin_false (k : Nat) : F32.sval (F32.fin false k) = (k : Int) := by
  simp only [F32.sval, Bool.false_eq_true, if_false]

/-- The data `y` with `-1 ≤ y` and `y ≤ 1` are the finite ones between `-2^149` and
`2^149` units. -/
theorem nominal_cases {y : F32} (h1 : F32.le minusOne y = true) (h2 : F32.le y one = true) :
    ∃ n k, y = F32.fin n k ∧ -(2 ^ 149) ≤ F32.sval (F32.fin n k)
      ∧ F32.sval (F32.fin n k) ≤ 2 ^ 149 := by
  rw [minusOne_eq] at h1
  rw [one] at h2
  cases y with
  | nan => simp [F32.le] at h1
  | inf n => cases n <;> simp [F32.le] at h1 h2
  | fin n k =>
    refine ⟨n, k, rfl, ?_, ?_⟩
    · simp only [F32.le, decide_eq_true_eq, sval_fin_true] at h1
      omega
    · simp only [F32.le, decide_eq_true_eq, sval_fin_false] at h2
      omega

/-- The data `y` with `1 < y` are `+∞` and the finite ones above `2^149` units. -/
theorem above_one_cases {y : F32} (h : F32.lt one y = true) :
    y = F32.inf false ∨ ∃ n k, y = F32.fin n k ∧ 2 ^ 149 < F32.sval (F32.fin n k) := by
  rw [one] at h
  cases y with
  | nan => simp [F32.lt] at h
  | inf n => cases n <;> simp [F32.lt] at h ⊢
  | fin n k =>
    right
    refine ⟨n, k, rfl, ?_⟩
    simp only [F32.lt, decide_eq_true_eq, sval_fin_false] at h
    omega

/-- The data `y` with `y < -1` are `-∞` and the finite ones below `-2^149` units. -/
theorem below_minusOne_cases {y : F32} (h : F32.lt y minusOne = true) :
    y = F32.inf true ∨ ∃ n k, y = F32.fin n k ∧ F32.sval (F32.fin n k) < -(2 ^ 149) := by
  rw [minusOne_eq] at h
  cases y with
  | nan => simp [F32.lt] at h
  | inf n => cases n <;> simp [F32.lt] at h ⊢
  | fin n k =>
    right
    refine ⟨n, k, rfl, ?_⟩
    simp only [F32.lt, decide_eq_true_eq, sval_fin_true] at h
    omega

/-- Above `1.0` line 43, when defined, yields at least 255. -/
theorem brightness_above_one {y : F32} {b : Int} (hy : F32.lt one y = true)
    (hb : brightness y = some b) : 255 ≤ b := by
  rcases above_one_cases hy with rfl | ⟨n, k, rfl, hk⟩
  · rw [brightness_inf] at hb; exact absurd hb (by simp)
  · cases hr : F32.roundMag (F32.sval (F32.fin n k) + 2 ^ 149).toNat 0 with
    | none =>
      rw [brightness, add_one_overflow (by omega) hr, mul_c127_5_inf, toInt_inf] at hb
      exact absurd hb (by simp)
    | some r =>
      have hS : 2 ^ 150 ≤ (F32.sval (F32.fin n k) + 2 ^ 149).toNat := by omega
      have hr2 : 2 ^ 150 ≤ r := F32.roundMag_mono_some hS roundMag_two hr
      cases hq : F32.roundMag (255 * 2 ^ 148 * r) 149 with
      | none =>
        rw [brightness, add_one_nonneg (by omega) hr, mul_c127_5_fin_none hq, toInt_inf] at hb
        exact absurd hb (by simp)
      | some q =>
        have hP : 255 * 2 ^ 148 * 2 ^ 150 ≤ 255 * 2 ^ 148 * r := Nat.mul_le_mul_left _ hr2
        have hq2 : 255 * 2 ^ 149 ≤ q := F32.roundMag_mono_some hP roundMag_255 hq
        have hd : 255 ≤ q / 2 ^ 149 := by omega
        rw [brightness_of_nonneg (by omega) hr hq] at hb
        split_ifs at hb
        simp only [Option.some.injEq] at hb
        omega

/-- Below `-1.0` line 43, when defined, yields at most 0. -/
theorem brightness_below_minusOne {y : F32} {b : Int} (hy : F32.lt y minusOne = true)
    (hb : brightness y = some b) : b ≤ 0 := by
  rcases below_minusOne_cases hy with rfl | ⟨n, k, rfl, hk⟩
  · rw [brightness_inf] at hb; exact absurd hb (by simp)
  · rcases add_one_neg (n := n) (k := k) (by omega) with ⟨r, hr⟩ | hr
    · cases hq : F32.roundMag (255 * 2 ^ 148 * r) 149 with
      | none =>
        rw [brightness, hr, mul_c127_5_fin_none hq, toInt_inf] at hb
        exact absurd hb (by simp)
      | some q =>
        rw [brightness, hr, mul_c127_5_fin hq] at hb
        exact toInt_fin_true_nonpos hb
    · rw [brightness, hr, mul_c127_5_inf, toInt_inf] at hb
      exact absurd hb (by simp)

/-- On `-1 ≤ y ≤ 1` line 43 is defined and yields a value in `[0, 255]`. -/
theorem brightness_nominal_range {y : F32} (h1 : F32.le minusOne y = true)
    (h2 : F32.le y one = true) : ∃ b, brightness y = some b ∧ 0 ≤ b ∧ b ≤ 255 := by
  obtain ⟨n, k, rfl, hlo, hhi⟩ := nominal_cases h1 h2
  obtain ⟨r, q, _, _, hd, hb⟩ := brightness_nominal hlo hhi
  exact ⟨_, hb, Int.ofNat_nonneg _, by omega⟩

/-- On `-1 ≤ y ≤ 1` line 43 is monotone. -/
theorem brightness_mono_nominal {n1 n2 : Bool} {k1 k2 : Nat}
    (hlo : -(2 ^ 149) ≤ F32.sval (F32.fin n1 k1))
    (h12 : F32.sval (F32.fin n1 k1) ≤ F32.sval (F32.fin n2 k2))
    (hhi : F32.sval (F32.fin n2 k2) ≤ 2 ^ 149) :
    ∃ b1 b2, brightness (F32.fin n1 k1) = some b1 ∧ brightness (F32.fin n2 k2) = some b2
      ∧ 0 ≤ b1 ∧ b1 ≤ b2 ∧ b2 ≤ 255 := by
  obtain ⟨r1, q1, hr1, hq1, _, hb1⟩ := brightness_nominal hlo (le_trans h12 hhi)
  obtain ⟨r2, q2, hr2, hq2, hd2, hb2⟩ := brightness_nominal (le_trans hlo h12) hhi
  have hS : (F32.sval (F32.fin n1 k1) + 2 ^ 149).toNat
      ≤ (F32.sval (F32.fin n2 k2) + 2 ^ 149).toNat := by omega
  have hr : r1 ≤ r2 := F32.roundMag_mono_some hS hr1 hr2
  have hP : 255 * 2 ^ 148 * r1 ≤ 255 * 2 ^ 148 * r2 := Nat.mul_le_mul_left _ hr
  have hq : q1 ≤ q2 := F32.roundMag_mono_some hP hq1 hq2
  have hd : q1 / 2 ^ 149 ≤ q2 / 2 ^ 149 := Nat.div_le_div_right hq
  exact ⟨_, _, hb1, hb2, Int.ofNat_nonneg _, by omega, by omega⟩

/-! ## The conversion of line 43 is truncation toward zero -/

theorem truncTowardZero_neg (x : ℚ) : truncTowardZero (-x) = -truncTowardZero x := by
  simp only [truncTowardZero]
  rcases lt_trichotomy x 0 with h | h | h
  · rw [if_pos (by linarith), if_neg (by linarith), Int.floor_neg]
  · subst h; simp
  · rw [if_neg (by linarith), if_pos (by linarith), Int.ceil_neg]

theorem truncTowardZero_natCast_div (q d : Nat) :
    truncTowardZero ((q : ℚ) / (d : ℚ)) = ((q / d : Nat) : Int) := by
  have h0 : (0 : ℚ) ≤ (q : ℚ) / (d : ℚ) := by positivity
  rw [truncTowardZero, if_pos h0, Rat.floor_natCast_div_natCast, Int.natCast_div]

theorem toRat_fin_false (q : Nat) :
    (F32.fin false q).toRat = (q : ℚ) / ((2 ^ 149 : Nat) : ℚ) := by
  simp only [F32.toRat, sval_fin_false, Int.cast_natCast, Nat.cast_pow, Nat.cast_ofNat]

theorem toRat_fin_true (q : Nat) :
    (F32.fin true q).toRat = -((q : ℚ) / ((2 ^ 149 : Nat) : ℚ)) := by
  simp only [F32.toRat, sval_fin_true, Int.cast_neg, Int.cast_natCast, Nat.cast_pow,
    Nat.cast_ofNat, neg_div]

theorem truncTowardZero_toRat_fin (n : Bool) (q : Nat) :
    truncTowardZero (F32.fin n q).toRat
      = if n then -((q / 2 ^ 149 : Nat) : Int) else ((q / 2 ^ 149 : Nat) : Int) := by
  cases n
  · rw [toRat_fin_false, truncTowardZero_natCast_div]; simp
  · rw [toRat_fin_true, truncTowardZero_neg, truncTowardZero_natCast_div]; simp

theorem toInt_fin (n : Bool) (q : Nat) :
    F32.toInt (F32.fin n q)
      = if INT_MIN ≤ truncTowardZero (F32.fin n q).toRat
            ∧ truncTowardZero (F32.fin n q).toRat ≤ INT_MAX
        then some (truncTowardZero (F32.fin n q).toRat) else none := by
  rw [truncTowardZero_toRat_fin]
  unfold F32.toInt
  cases n <;> simp only [if_true, Bool.false_eq_true, if_false]

/-- The conversion `(int) f` is defined exactly on the finite data whose truncation fits
in `int`, and yields that truncation. -/
theorem toInt_eq_some_iff (f : F32) (b : Int) :
    f.toInt = some b ↔
      ∃ n q, f = F32.fin n q ∧ b = truncTowardZero (F32.fin n q).toRat
        ∧ INT_MIN ≤ b ∧ b ≤ INT_MAX := by
  cases f with
  | nan =>
    unfold F32.toInt
    simp
  | inf n =>
    unfold F32.toInt
    simp
  | fin n q =>
    rw [toInt_fin]
    constructor
    · intro h
      split_ifs at h with hc
      simp only [Option.some.injEq] at h
      subst h
      exact ⟨n, q, rfl, rfl, hc.1, hc.2⟩
    · rintro ⟨n', q', heq, hb, hlo, hhi⟩
      rw [← heq] at hb
      subst hb
      rw [if_pos ⟨hlo, hhi⟩]

/-! ## Traces of `HandleOutput` -/

theorem brightnessOn_some (p : Platform) {y : F32} {b : Int} (h : brightness y = some b) :
    brightnessOn p y = b := by
  simp only [brightnessOn, h]

theorem brightnessOn_none (p : Platform) {y : F32} (h : brightness y = none) :
    brightnessOn p y = p.undefinedCast (F32.mul c127_5 (F32.add y one)) := by
  simp only [brightnessOn, h]

/-- Every call runs to its end: it writes the clamped integer, logs the unclamped one and
waits. -/
theorem HandleOutput_eq (p : Platform) (g : Globals) (x y : F32) :
    HandleOutput p g x y =
      { globals := { led := g.led, initialized := true }
        trace := (if g.initialized then [] else [Event.pinMode g.led p.OUTPUT]) ++
          [Event.analogWrite g.led (clampBrightness (brightnessOn p y)),
            Event.MicroPrintf (brightnessOn p y), Event.delay 33] } := by
  obtain ⟨led, ini⟩ := g
  cases ini <;> simp [HandleOutput]

theorem HandleOutput_some (p : Platform) (g : Globals) (x y : F32) {b : Int}
    (h : brightness y = some b) :
    HandleOutput p g x y =
      { globals := { led := g.led, initialized := true }
        trace := (if g.initialized then [] else [Event.pinMode g.led p.OUTPUT]) ++
          [Event.analogWrite g.led (clampBrightness b), Event.MicroPrintf b, Event.delay 33] } := by
  rw [HandleOutput_eq, brightnessOn_some p h]

theorem writtenValues_HandleOutput (p : Platform) (g : Globals) (x y : F32) :
    writtenValues (HandleOutput p g x y).trace = [clampBrightness (brightnessOn p y)] := by
  rw [HandleOutput_eq]
  cases g.initialized <;> simp [writtenValues]

theorem loggedValues_HandleOutput (p : Platform) (g : Globals) (x y : F32) :
    loggedValues (HandleOutput p g x y).trace = [brightnessOn p y] := by
  rw [HandleOutput_eq]
  cases g.initialized <;> simp [loggedValues]

theorem writtenValues_HandleOutput_some (p : Platform) (g : Globals) (x y : F32) {b : Int}
    (h : brightness y = some b) :
    writtenValues (HandleOutput p g x y).trace = [clampBrightness b] := by
  rw [writtenValues_HandleOutput, brightnessOn_some p h]

theorem loggedValues_HandleOutput_some (p : Platform) (g : Globals) (x y : F32) {b : Int}
    (h : brightness y = some b) :
    loggedValues (HandleOutput p g x y).trace = [b] := by
  rw [loggedValues_HandleOutput, brightnessOn_some p h]

theorem clampBrightness_range (b : Int) : 0 ≤ clampBrightness b ∧ clampBrightness b ≤ 255 := by
  simp only [clampBrightness]
  omega

theorem clampBrightness_mono {a b : Int} (h : a ≤ b) : clampBrightness a ≤ clampBrightness b := by
  simp only [clampBrightness]
  omega

theorem clampBrightness_INT_MIN : clampBrightness INT_MIN = 0 := by decide

/-- Whatever the input and the target, the value written lies in `[0, 255]`. -/
theorem written_value_in_range (p : Platform) (g : Globals) (x y : F32) :
    ∃ w, writtenValues (HandleOutput p g x y).trace = [w] ∧ 0 ≤ w ∧ w ≤ 255 :=
  ⟨_, writtenValues_HandleOutput p g x y, clampBrightness_range _⟩

/-! ## One-time initialization -/

theorem HandleOutput_initialized (p : Platform) (g : Globals) (x y : F32) :
    (HandleOutput p g x y).globals.initialized = true := by
  rw [HandleOutput_eq]

/-- A call made with the flag set configures nothing. -/
theorem HandleOutput_no_pinMode (p : Platform) (g : Globals) (x y : F32)
    (hg : g.initialized = true) :
    (HandleOutput p g x y).trace.countP Event.isPinMode = 0 := by
  rw [HandleOutput_eq, hg]; simp [Event.isPinMode]

/-- A call made with the flag clear starts by configuring the pin, once. -/
theorem HandleOutput_first (p : Platform) (g : Globals) (x y : F32)
    (hg : g.initialized = false) :
    ∃ rest, (HandleOutput p g x y).trace = Event.pinMode g.led p.OUTPUT :: rest
      ∧ rest.countP Event.isPinMode = 0 := by
  rw [HandleOutput_eq, hg]
  exact ⟨[Event.analogWrite g.led (clampBrightness (brightnessOn p y)),
      Event.MicroPrintf (brightnessOn p y), Event.delay 33],
    by simp, by simp [Event.isPinMode]⟩

theorem runCalls_initialized (p : Platform) (calls : List (F32 × F32)) :
    ∀ g : Globals, g.initialized = true →
      (runCalls p g calls).globals.initialized = true
        ∧ (runCalls p g calls).trace.countP Event.isPinMode = 0 := by
  induction calls with
  | nil => intro g hg; simp [runCalls, hg]
  | cons a rest ih =>
    intro g hg
    have h1 := HandleOutput_initialized p g a.1 a.2
    have h2 := HandleOutput_no_pinMode p g a.1 a.2 hg
    obtain ⟨h3, h4⟩ := ih _ h1
    simp only [runCalls]
    simp [h3, h4, h2]

theorem runCalls_cons_initialized (p : Platform) (g : Globals) (a : F32 × F32)
    (rest : List (F32 × F32)) :
    (runCalls p g (a :: rest)).globals.initialized = true := by
  have h1 := HandleOutput_initialized p g a.1 a.2
  simp only [runCalls]
  exact (runCalls_initialized p rest _ h1).1

theorem runCalls_first (p : Platform) (g : Globals) (a : F32 × F32)
    (rest : List (F32 × F32)) (hg : g.initialized = false) :
    ∃ t, (runCalls p g (a :: rest)).trace = Event.pinMode g.led p.OUTPUT :: t
      ∧ t.countP Event.isPinMode = 0 := by
  have h1 := HandleOutput_initialized p g a.1 a.2
  obtain ⟨t, ht, hc0⟩ := HandleOutput_first p g a.1 a.2 hg
  simp only [runCalls]
  refine ⟨t ++ (runCalls p (HandleOutput p g a.1 a.2).globals rest).trace, ?_, ?_⟩
  · simp [ht]
  · simp [hc0, (runCalls_initialized p rest _ h1).2]

/-- A run of `N` calls makes `N` writes, one per call. -/
theorem runCalls_writes (p : Platform) (calls : List (F32 × F32)) :
    ∀ g : Globals, (writtenValues (runCalls p g calls).trace).length = calls.length := by
  have happ : ∀ t1 t2 : List Event, writtenValues (t1 ++ t2)
      = writtenValues t1 ++ writtenValues t2 := by
    intro t1 t2
    induction t1 with
    | nil => rfl
    | cons e t ih => cases e <;> simp [writtenValues, ih]
  induction calls with
  | nil => intro g; simp [runCalls, writtenValues]
  | cons a rest ih =>
    intro g
    simp only [runCalls, happ, List.length_append, writtenValues_HandleOutput, ih,
      List.length_cons, List.length_nil]
    omega

/-! ## Line 43 at particular inputs -/

set_option maxRecDepth 100000 in
set_option exponentiation.threshold 1024 in
theorem brightness_five : brightness five = some 765 := by decide

set_option maxRecDepth 100000 in
set_option exponentiation.threshold 1024 in
theorem brightness_minusThree : brightness minusThree = some (-255) := by decide

set_option maxRecDepth 100000 in
set_option exponentiation.threshold 1024 in
theorem brightness_minusHalf : brightness minusHalf = some 63 := by decide

set_option maxRecDepth 100000 in
set_option exponentiation.threshold 1024 in
theorem brightness_minusOne : brightness minusOne = some 0 := by decide

set_option maxRecDepth 100000 in
set_option exponentiation.threshold 1024 in
theorem brightness_one : brightness one = some 255 := by decide

set_option maxRecDepth 100000 in
set_option exponentiation.threshold 1024 in
theorem brightness_zero : brightness zero = some 127 := by decide

set_option maxRecDepth 100000 in
set_option exponentiation.threshold 1024 in
theorem brightness_twoPow25 : brightness twoPow25 = none := by decide

set_option maxRecDepth 100000 in
set_option exponentiation.threshold 1024 in
theorem brightness_minusTwoPow25 : brightness minusTwoPow25 = none := by decide

set_option maxRecDepth 100000 in
set_option exponentiation.threshold 1024 in
theorem brightness_twoPow31 : brightness twoPow31 = none := by decide

theorem brightness_plusInfinity : brightness plusInfinity = none := by decide

theorem brightness_quietNaN : brightness quietNaN = none := by decide

theorem one_lt_twoPow25 : F32.lt one twoPow25 = true := by decide

theorem one_lt_five : F32.lt one five = true := by decide

theorem minusThree_lt_minusOne : F32.lt minusThree minusOne = true := by decide

theorem minusOne_le_minusHalf : F32.le minusOne minusHalf = true := by decide

theorem minusHalf_lt_zero : F32.lt minusHalf zero = true := by decide

theorem zero_le_one : F32.le zero one = true := by decide

theorem minusOne_le_zero : F32.le minusOne zero = true := by decide

theorem one_eq_ofBits : one = F32.ofBits 0x3F800000 := by decide

theorem c127_5_eq_ofBits : c127_5 = F32.ofBits 0x42FF0000 := by decide

theorem toRat_minusHalf : minusHalf.toRat = -1 / 2 := by
  have h : minusHalf = F32.fin true (2 ^ 148) := by decide
  rw [h, toRat_fin_true]
  norm_num

theorem toRat_five : five.toRat = 5 := by
  have h : five = F32.fin false (5 * 2 ^ 149) := by decide
  rw [h, toRat_fin_false]
  norm_num

theorem specIntensity_minusHalf : specIntensity minusHalf.toRat = 64 := by
  rw [toRat_minusHalf, specIntensity, round_eq, Int.floor_eq_iff]
  norm_num

/-- Two data ordered `-1 ≤ y1 < y2 ≤ 1` are finite, with ordered magnitudes. -/
theorem ordered_nominal_cases {y1 y2 : F32} (h1 : F32.le minusOne y1 = true)
    (h12 : F32.lt y1 y2 = true) (h2 : F32.le y2 one = true) :
    ∃ n1 k1 n2 k2, y1 = F32.fin n1 k1 ∧ y2 = F32.fin n2 k2
      ∧ -(2 ^ 149) ≤ F32.sval (F32.fin n1 k1)
      ∧ F32.sval (F32.fin n1 k1) < F32.sval (F32.fin n2 k2)
      ∧ F32.sval (F32.fin n2 k2) ≤ 2 ^ 149 := by
  rw [minusOne_eq] at h1
  rw [one] at h2
  cases y1 with
  | nan => simp [F32.le] at h1
  | inf n => cases n <;> cases y2 <;> simp [F32.le, F32.lt] at h1 h12
  | fin n1 k1 =>
    cases y2 with
    | nan => simp [F32.le] at h2
    | inf n => cases n <;> simp [F32.le, F32.lt] at h2 h12
    | fin n2 k2 =>
      refine ⟨n1, k1, n2, k2, rfl, rfl, ?_, ?_, ?_⟩
      · simp only [F32.le, decide_eq_true_eq, sval_fin_true] at h1
        omega
      · simpa only [F32.lt, decide_eq_true_eq] using h12
      · simp only [F32.le, decide_eq_true_eq, sval_fin_false] at h2
        omega

/-! ## Saturation outside the nominal domain

Outside `[-1, 1]` the clamp saturates whenever line 43 is defined, and line 43 is defined
at least for `|y| ≤ 2^24`. -/

/-- The sum `y_value + 1` when it is negative and does not overflow. -/
theorem add_one_neg_some {n : Bool} {k r : Nat} (h : F32.sval (F32.fin n k) + 2 ^ 149 < 0)
    (hr : F32.roundMag (F32.sval (F32.fin n k) + 2 ^ 149).natAbs 0 = some r) :
    F32.add (F32.fin n k) one = F32.fin true r := by
  simp only [F32.add, one]
  have hs : F32.sval (F32.fin false (2 ^ 149)) = 2 ^ 149 := by simp [F32.sval]
  rw [hs, if_neg (by omega), hr]
  have hd : decide (F32.sval (F32.fin n k) + 2 ^ 149 < 0) = true := decide_eq_true h
  rw [hd]

/-- The conversion of a negative finite value. -/
theorem toInt_fin_true (q : Nat) :
    F32.toInt (F32.fin true q)
      = if INT_MIN ≤ -((q / 2 ^ 149 : Nat) : Int) then some (-((q / 2 ^ 149 : Nat) : Int))
        else none := by
  unfold F32.toInt
  have h0 : -((q / 2 ^ 149 : Nat) : Int) ≤ INT_MAX := by
    have : (0 : Int) ≤ ((q / 2 ^ 149 : Nat) : Int) := Int.ofNat_nonneg _
    simp only [INT_MAX]; omega
  simp only [if_true, h0, and_true]

set_option maxRecDepth 100000 in
set_option exponentiation.threshold 1024 in
theorem roundMag_twoPow24_succ :
    F32.roundMag (2 ^ 173 + 2 ^ 149) 0 = some (2 ^ 173) := by decide

set_option maxRecDepth 100000 in
set_option exponentiation.threshold 1024 in
theorem roundMag_255_twoPow24 :
    F32.roundMag (255 * 2 ^ 148 * 2 ^ 173) 149 = some (255 * 2 ^ 172) := by decide

theorem twoPow24_eq : twoPow24 = F32.fin false (2 ^ 173) := by decide

theorem minusTwoPow24_eq : minusTwoPow24 = F32.fin true (2 ^ 173) := by decide

/-- Above `1.0`, whenever line 43 is defined, the value written is 255. -/
theorem upper_saturation_when_defined (p : Platform) (g : Globals) (x y : F32) (b : Int)
    (hy : F32.lt one y = true) (hb : brightness y = some b) :
    writtenValues (HandleOutput p g x y).trace = [255] := by
  have h := brightness_above_one hy hb
  rw [writtenValues_HandleOutput_some p g x y hb]
  simp only [clampBrightness, List.cons.injEq, and_true]
  omega

/-- Below `-1.0`, whenever line 43 is defined, the value written is 0. -/
theorem lower_saturation_when_defined (p : Platform) (g : Globals) (x y : F32) (b : Int)
    (hy : F32.lt y minusOne = true) (hb : brightness y = some b) :
    writtenValues (HandleOutput p g x y).trace = [0] := by
  have h := brightness_below_minusOne hy hb
  rw [writtenValues_HandleOutput_some p g x y hb]
  simp only [clampBrightness, List.cons.injEq, and_true]
  omega

/-- For `1 < y ≤ 2^24` line 43 is defined. -/
theorem brightness_defined_up_to_twoPow24 {y : F32} (hy : F32.lt one y = true)
    (hy2 : F32.le y twoPow24 = true) : ∃ b, brightness y = some b := by
  rw [twoPow24_eq] at hy2
  rcases above_one_cases hy with rfl | ⟨n, k, rfl, hk⟩
  · simp [F32.le] at hy2
  · simp only [F32.le, decide_eq_true_eq, sval_fin_false] at hy2
    have hS : (F32.sval (F32.fin n k) + 2 ^ 149).toNat ≤ 2 ^ 173 + 2 ^ 149 := by omega
    obtain ⟨r, hr, hr2⟩ := F32.roundMag_mono hS roundMag_twoPow24_succ
    have hP : 255 * 2 ^ 148 * r ≤ 255 * 2 ^ 148 * 2 ^ 173 := Nat.mul_le_mul_left _ hr2
    obtain ⟨q, hq, hq2⟩ := F32.roundMag_mono hP roundMag_255_twoPow24
    have hd : q / 2 ^ 149 ≤ 2139095040 := by omega
    refine ⟨((q / 2 ^ 149 : Nat) : Int), ?_⟩
    rw [brightness_of_nonneg (by omega) hr hq, if_pos]
    simp only [INT_MAX]
    omega

/-- For `-2^24 ≤ y < -1` line 43 is defined. -/
theorem brightness_defined_down_to_minusTwoPow24 {y : F32}
    (hy : F32.lt y minusOne = true) (hy2 : F32.le minusTwoPow24 y = true) :
    ∃ b, brightness y = some b := by
  rw [minusTwoPow24_eq] at hy2
  rcases below_minusOne_cases hy with rfl | ⟨n, k, rfl, hk⟩
  · simp [F32.le] at hy2
  · simp only [F32.le, decide_eq_true_eq, sval_fin_true] at hy2
    have hS : (F32.sval (F32.fin n k) + 2 ^ 149).natAbs ≤ 2 ^ 173 + 2 ^ 149 := by omega
    obtain ⟨r, hr, hr2⟩ := F32.roundMag_mono hS roundMag_twoPow24_succ
    have hP : 255 * 2 ^ 148 * r ≤ 255 * 2 ^ 148 * 2 ^ 173 := Nat.mul_le_mul_left _ hr2
    obtain ⟨q, hq, hq2⟩ := F32.roundMag_mono hP roundMag_255_twoPow24
    have hd : q / 2 ^ 149 ≤ 2139095040 := by omega
    refine ⟨-((q / 2 ^ 149 : Nat) : Int), ?_⟩
    rw [brightness, add_one_neg_some (by omega) hr, mul_c127_5_fin hq, toInt_fin_true, if_pos]
    simp only [INT_MIN]
    omega

/-- For `1 < y ≤ 2^24` the call writes 255. -/
theorem upper_saturation_up_to_twoPow24 (p : Platform) (g : Globals) (x y : F32)
    (hy : F32.lt one y = true) (hy2 : F32.le y twoPow24 = true) :
    writtenValues (HandleOutput p g x y).trace = [255] := by
  obtain ⟨b, hb⟩ := brightness_defined_up_to_twoPow24 hy hy2
  exact upper_saturation_when_defined p g x y b hy hb

/-- For `-2^24 ≤ y < -1` the call writes 0. -/
theorem lower_saturation_down_to_minusTwoPow24 (p : Platform) (g : Globals) (x y : F32)
    (hy : F32.lt y minusOne = true) (hy2 : F32.le minusTwoPow24 y = true) :
    writtenValues (HandleOutput p g x y).trace = [0] := by
  obtain ⟨b, hb⟩ := brightness_defined_down_to_minusTwoPow24 hy hy2
  exact lower_saturation_when_defined p g x y b hy hb

/-! ## Sign of the product outside the nominal domain -/

/-- Above `1.0` the product `127.5f * (y + 1)` is a number or `+∞` with its sign bit
clear. -/
theorem product_of_above_one {y : F32} (hy : F32.lt one y = true) :
    (∃ q, F32.mul c127_5 (F32.add y one) = F32.fin false q)
      ∨ F32.mul c127_5 (F32.add y one) = F32.inf false := by
  rcases above_one_cases hy with rfl | ⟨n, k, rfl, hk⟩
  · right; rw [add_inf_one, mul_c127_5_inf]
  · cases hr : F32.roundMag (F32.sval (F32.fin n k) + 2 ^ 149).toNat 0 with
    | none => right; rw [add_one_overflow (by omega) hr, mul_c127_5_inf]
    | some r =>
      cases hq : F32.roundMag (255 * 2 ^ 148 * r) 149 with
      | none => right; rw [add_one_nonneg (by omega) hr, mul_c127_5_fin_none hq]
      | some q => left; exact ⟨q, by rw [add_one_nonneg (by omega) hr, mul_c127_5_fin hq]⟩

theorem saturatingBoard_negativeCastNonpos : saturatingBoard.negativeCastNonpos := by
  intro f hf
  cases f with
  | nan => simp [F32.signBit] at hf
  | inf n =>
    simp only [F32.signBit] at hf
    subst hf
    show INT_MIN ≤ 0
    decide
  | fin n k =>
    simp only [F32.signBit] at hf
    subst hf
    show INT_MIN ≤ 0
    decide

/-- On a target whose conversion saturates, every `y > 1.0` makes the call write 255. -/
theorem upper_saturation_on_saturatingBoard (g : Globals) (x y : F32)
    (hy : F32.lt one y = true) :
    writtenValues (HandleOutput saturatingBoard g x y).trace = [255] := by
  cases hb : brightness y with
  | some b => exact upper_saturation_when_defined saturatingBoard g x y b hy hb
  | none =>
    rw [writtenValues_HandleOutput, brightnessOn_none saturatingBoard hb]
    rcases product_of_above_one hy with ⟨q, hq⟩ | hq
    · rw [hq]
      show [clampBrightness INT_MAX] = [255]
      decide
    · rw [hq]
      show [clampBrightness INT_MAX] = [255]
      decide

set_option maxRecDepth 100000 in
set_option exponentiation.threshold 1024 in
theorem product_twoPow25 :
    F32.mul c127_5 (F32.add twoPow25 one) = F32.fin false (4278190080 * 2 ^ 149) := by decide

theorem toRat_product_twoPow25 :
    (F32.mul c127_5 (F32.add twoPow25 one)).toRat = 4278190080 := by
  rw [product_twoPow25, toRat_fin_false]
  norm_num

/-! ## The properties of the specification -/

/-- C1: whenever line 43 yields the integer `b`, the single value `HandleOutput` passes to
`analogWrite` is `min(255, max(0, b))`, and it lies in the closed range `[0, 255]`. -/
theorem write_is_saturating_clamp (p : Platform) (g : Globals) (x y : F32) (b : Int)
    (h : brightness y = some b) :
    writtenValues (HandleOutput p g x y).trace = [min 255 (max 0 b)]
      ∧ 0 ≤ min 255 (max 0 b) ∧ min 255 (max 0 b) ≤ 255 := by
  refine ⟨writtenValues_HandleOutput_some p g x y h, ?_, ?_⟩ <;> omega

theorem write_is_saturating_clamp_witness :
    brightness five = some 765
      ∧ writtenValues (HandleOutput exampleBoard (initialGlobals exampleBoard) zero five).trace
          = [min 255 (max 0 765)]
      ∧ (0 : Int) ≤ min 255 (max 0 765) ∧ (min 255 (max 0 765) : Int) ≤ 255 :=
  ⟨brightness_five,
    write_is_saturating_clamp exampleBoard (initialGlobals exampleBoard) zero five 765
      brightness_five⟩

/-- C5: the pre-clamp intensity is 0 for `y = -1.0`, 255 for `y = 1.0`, and 127 or 128
for `y = 0.0` (it is 127). -/
theorem affine_endpoints :
    brightness minusOne = some 0 ∧ brightness one = some 255
      ∧ (brightness zero = some 127 ∨ brightness zero = some 128) :=
  ⟨brightness_minusOne, brightness_one, Or.inl brightness_zero⟩

/-- C6: from the initial globals, any run of `N ≥ 1` calls with arbitrary arguments has a
trace that starts with `pinMode(led, OUTPUT)` and holds no other `pinMode`; so there is
exactly one, it comes before every `analogWrite`, and `initialized` is true after the
first call and after every later one. -/
theorem initialization_happens_once (p : Platform) (calls : List (F32 × F32))
    (hN : 1 ≤ calls.length) :
    (∃ rest, (runCalls p (initialGlobals p) calls).trace
        = Event.pinMode p.LED_BUILTIN p.OUTPUT :: rest
        ∧ rest.countP Event.isPinMode = 0)
      ∧ (runCalls p (initialGlobals p) calls).trace.countP Event.isPinMode = 1
      ∧ (∀ pre e post, (runCalls p (initialGlobals p) calls).trace = pre ++ e :: post →
          e.isAnalogWrite = true → Event.pinMode p.LED_BUILTIN p.OUTPUT ∈ pre)
      ∧ ∀ n, 1 ≤ n → (runCalls p (initialGlobals p) (calls.take n)).globals.initialized = true := by
  cases calls with
  | nil => simp at hN
  | cons a rest =>
    obtain ⟨t, ht, hc⟩ := runCalls_first p (initialGlobals p) a rest rfl
    have hled : (initialGlobals p).led = p.LED_BUILTIN := rfl
    rw [hled] at ht
    refine ⟨⟨t, ht, hc⟩, ?_, ?_, ?_⟩
    · rw [ht]
      simp [Event.isPinMode, hc]
    · intro pre e post hsplit he
      rw [ht] at hsplit
      cases pre with
      | nil =>
        simp only [List.nil_append, List.cons.injEq] at hsplit
        rw [← hsplit.1] at he
        simp [Event.isAnalogWrite] at he
      | cons e0 pre0 =>
        simp only [List.cons_append, List.cons.injEq] at hsplit
        rw [← hsplit.1]
        exact List.mem_cons_self _ _
    · intro n hn
      obtain ⟨m, rfl⟩ : ∃ m, n = m + 1 := ⟨n - 1, by omega⟩
      rw [List.take_succ_cons]
      exact runCalls_cons_initialized p _ a _

theorem initialization_happens_once_witness :
    1 ≤ exampleCalls.length
      ∧ (∃ rest, (runCalls exampleBoard (initialGlobals exampleBoard) exampleCalls).trace
          = Event.pinMode exampleBoard.LED_BUILTIN exampleBoard.OUTPUT :: rest
          ∧ rest.countP Event.isPinMode = 0)
      ∧ (runCalls exampleBoard (initialGlobals exampleBoard) exampleCalls).trace.countP
          Event.isPinMode = 1
      ∧ (∀ pre e post,
          (runCalls exampleBoard (initialGlobals exampleBoard) exampleCalls).trace
            = pre ++ e :: post →
          e.isAnalogWrite = true →
          Event.pinMode exampleBoard.LED_BUILTIN exampleBoard.OUTPUT ∈ pre)
      ∧ ∀ n, 1 ≤ n →
          (runCalls exampleBoard (initialGlobals exampleBoard)
            (exampleCalls.take n)).globals.initialized = true :=
  ⟨by decide, initialization_happens_once exampleBoard exampleCalls (by decide)⟩

/-- C7: the integer `HandleOutput` logs is the pre-clamp intensity of line 43, while the
integer it writes is the clamped one; the two differ as soon as the pre-clamp intensity
is outside `[0, 255]`.  For `y = 5.0` the log holds 765 and the write 255. -/
theorem logged_value_is_pre_clamp (p : Platform) (g : Globals) (x y : F32) :
    (∀ b, brightness y = some b →
        loggedValues (HandleOutput p g x y).trace = [b]
          ∧ writtenValues (HandleOutput p g x y).trace = [clampBrightness b]
          ∧ ((b < 0 ∨ 255 < b) →
              loggedValues (HandleOutput p g x y).trace
                ≠ writtenValues (HandleOutput p g x y).trace))
      ∧ (loggedValues (HandleOutput p g x y).trace = [brightnessOn p y]
          ∧ writtenValues (HandleOutput p g x y).trace = [clampBrightness (brightnessOn p y)]
          ∧ ((brightnessOn p y < 0 ∨ 255 < brightnessOn p y) →
              loggedValues (HandleOutput p g x y).trace
                ≠ writtenValues (HandleOutput p g x y).trace))
      ∧ loggedValues (HandleOutput p g x five).trace = [765]
      ∧ writtenValues (HandleOutput p g x five).trace = [255] := by
  have key : ∀ b : Int, (b < 0 ∨ 255 < b) → [b] ≠ [clampBrightness b] := by
    intro b hout heq
    have hr := clampBrightness_range b
    simp only [List.cons.injEq, and_true] at heq
    omega
  refine ⟨?_, ⟨loggedValues_HandleOutput p g x y, writtenValues_HandleOutput p g x y, ?_⟩,
    ?_, ?_⟩
  · intro b hb
    refine ⟨loggedValues_HandleOutput_some p g x y hb,
      writtenValues_HandleOutput_some p g x y hb, ?_⟩
    intro hout
    rw [loggedValues_HandleOutput_some p g x y hb, writtenValues_HandleOutput_some p g x y hb]
    exact key b hout
  · intro hout
    rw [loggedValues_HandleOutput, writtenValues_HandleOutput]
    exact key _ hout
  · exact loggedValues_HandleOutput_some p g x five brightness_five
  · rw [writtenValues_HandleOutput_some p g x five brightness_five]
    simp [clampBrightness]

/-- C8: for `-1 ≤ y1 < y2 ≤ 1` both calls write a value, and the value written for `y1`
is at most the value written for `y2`. -/
theorem written_value_monotone (p : Platform) (g1 g2 : Globals) (x1 x2 y1 y2 : F32)
    (h1 : F32.le minusOne y1 = true) (h12 : F32.lt y1 y2 = true)
    (h2 : F32.le y2 one = true) :
    ∃ w1 w2, writtenValues (HandleOutput p g1 x1 y1).trace = [w1]
      ∧ writtenValues (HandleOutput p g2 x2 y2).trace = [w2] ∧ w1 ≤ w2 := by
  obtain ⟨n1, k1, n2, k2, rfl, rfl, hlo, hlt, hhi⟩ := ordered_nominal_cases h1 h12 h2
  obtain ⟨b1, b2, hb1, hb2, _, hle, _⟩ := brightness_mono_nominal hlo (le_of_lt hlt) hhi
  exact ⟨clampBrightness b1, clampBrightness b2,
    writtenValues_HandleOutput_some p g1 x1 _ hb1,
    writtenValues_HandleOutput_some p g2 x2 _ hb2, clampBrightness_mono hle⟩

theorem written_value_monotone_witness :
    F32.le minusOne minusHalf = true ∧ F32.lt minusHalf zero = true
      ∧ F32.le zero one = true
      ∧ ∃ w1 w2,
          writtenValues (HandleOutput exampleBoard (initialGlobals exampleBoard)
            zero minusHalf).trace = [w1]
          ∧ writtenValues (HandleOutput exampleBoard (initialGlobals exampleBoard)
            zero zero).trace = [w2]
          ∧ w1 ≤ w2 :=
  ⟨minusOne_le_minusHalf, minusHalf_lt_zero, zero_le_one,
    written_value_monotone exampleBoard (initialGlobals exampleBoard)
      (initialGlobals exampleBoard) zero zero minusHalf zero
      minusOne_le_minusHalf minusHalf_lt_zero zero_le_one⟩

/-- C10: for `-1 ≤ y ≤ 1` line 43 yields an integer already in `[0, 255]`, the clamp
leaves it unchanged, and the value logged equals the value written. -/
theorem clamp_is_identity_on_nominal_domain (p : Platform) (g : Globals) (x y : F32)
    (h1 : F32.le minusOne y = true) (h2 : F32.le y one = true) :
    ∃ b, brightness y = some b ∧ 0 ≤ b ∧ b ≤ 255 ∧ clampBrightness b = b
      ∧ loggedValues (HandleOutput p g x y).trace = [b]
      ∧ writtenValues (HandleOutput p g x y).trace = [b] := by
  obtain ⟨b, hb, h0, h255⟩ := brightness_nominal_range h1 h2
  have hc : clampBrightness b = b := by
    simp only [clampBrightness]; omega
  refine ⟨b, hb, h0, h255, hc, loggedValues_HandleOutput_some p g x y hb, ?_⟩
  rw [writtenValues_HandleOutput_some p g x y hb, hc]

theorem clamp_is_identity_on_nominal_domain_witness :
    F32.le minusOne zero = true ∧ F32.le zero one = true
      ∧ ∃ b, brightness zero = some b ∧ 0 ≤ b ∧ b ≤ 255 ∧ clampBrightness b = b
          ∧ loggedValues (HandleOutput exampleBoard (initialGlobals exampleBoard)
              zero zero).trace = [b]
          ∧ writtenValues (HandleOutput exampleBoard (initialGlobals exampleBoard)
              zero zero).trace = [b] :=
  ⟨minusOne_le_zero, zero_le_one,
    clamp_is_identity_on_nominal_domain exampleBoard (initialGlobals exampleBoard)
      zero zero minusOne_le_zero zero_le_one⟩

/-- C4, as stated, fails: at `y = -0.5` the affine value is 63.75, which rounds to 64,
while line 43 yields 63. -/
theorem intensity_is_not_rounded :
    minusHalf.toRat = -1 / 2 ∧ brightness minusHalf = some 63
      ∧ specIntensity minusHalf.toRat = 64
      ∧ brightness minusHalf ≠ some (specIntensity minusHalf.toRat) := by
  refine ⟨toRat_minusHalf, brightness_minusHalf, specIntensity_minusHalf, ?_⟩
  rw [brightness_minusHalf, specIntensity_minusHalf]
  decide

/-- C4, amended: line 43 yields `b` exactly when the single-precision product
`127.5f * (y_value + 1)` is finite, `b` is that product with its fractional part discarded
(truncation toward zero, not rounding to nearest), and `b` fits in `int`. -/
theorem intensity_is_truncated_product (y : F32) (b : Int) :
    brightness y = some b ↔
      ∃ n q, F32.mul c127_5 (F32.add y one) = F32.fin n q
        ∧ b = truncTowardZero (F32.fin n q).toRat ∧ INT_MIN ≤ b ∧ b ≤ INT_MAX :=
  toInt_eq_some_iff _ _

/-- C2 fails at `y = 33554432.0f`: it is above `1.0`, the product `127.5f * (y + 1)` is
`4278190080`, outside `int`, so the conversion of line 43 is undefined and the value
written is the clamp of whatever the target produces.  On a target that produces
`INT_MIN` the call logs `INT_MIN` and writes 0, not 255. -/
theorem upper_saturation_fails_at_twoPow25 :
    F32.lt one twoPow25 = true
      ∧ (F32.mul c127_5 (F32.add twoPow25 one)).toRat = 4278190080
      ∧ brightness twoPow25 = none
      ∧ (∀ (p : Platform) (g : Globals) (x : F32),
          writtenValues (HandleOutput p g x twoPow25).trace
            = [clampBrightness (p.undefinedCast (F32.mul c127_5 (F32.add twoPow25 one)))])
      ∧ (HandleOutput exampleBoard (initialGlobals exampleBoard) zero twoPow25).trace
          = [Event.pinMode 13 1, Event.analogWrite 13 0, Event.MicroPrintf INT_MIN,
              Event.delay 33]
      ∧ writtenValues (HandleOutput exampleBoard (initialGlobals exampleBoard)
          zero twoPow25).trace ≠ [255] := by
  have hw : ∀ (p : Platform) (g : Globals) (x : F32),
      writtenValues (HandleOutput p g x twoPow25).trace
        = [clampBrightness (p.undefinedCast (F32.mul c127_5 (F32.add twoPow25 one)))] := by
    intro p g x
    rw [writtenValues_HandleOutput, brightnessOn_none p brightness_twoPow25]
  have hb : brightnessOn exampleBoard twoPow25 = INT_MIN :=
    brightnessOn_none exampleBoard brightness_twoPow25
  refine ⟨one_lt_twoPow25, toRat_product_twoPow25, brightness_twoPow25, hw, ?_, ?_⟩
  · rw [HandleOutput_eq, hb, clampBrightness_INT_MIN]
    rfl
  · rw [writtenValues_HandleOutput, hb, clampBrightness_INT_MIN]
    decide

/-- C9 fails: for `y = 2147483648.0f`, for `+∞` and for NaN the conversion of line 43 is
undefined, so the integer logged and clamped is whatever the target produces.  On a
target that produces `INT_MIN` the call logs `INT_MIN` and writes 0, where saturation of
the affine value at `2147483648.0f` and at `+∞` would write 255. -/
theorem conversion_is_not_total :
    (brightness twoPow31 = none ∧ brightness plusInfinity = none
        ∧ brightness quietNaN = none)
      ∧ (∀ (p : Platform) (g : Globals) (x : F32),
          writtenValues (HandleOutput p g x twoPow31).trace
            = [clampBrightness (p.undefinedCast (F32.mul c127_5 (F32.add twoPow31 one)))])
      ∧ (∀ (g : Globals) (x : F32),
          loggedValues (HandleOutput exampleBoard g x twoPow31).trace = [INT_MIN]
            ∧ writtenValues (HandleOutput exampleBoard g x twoPow31).trace = [0])
      ∧ (∀ (g : Globals) (x : F32),
          loggedValues (HandleOutput exampleBoard g x plusInfinity).trace = [INT_MIN]
            ∧ writtenValues (HandleOutput exampleBoard g x plusInfinity).trace = [0])
      ∧ (∀ (g : Globals) (x : F32),
          loggedValues (HandleOutput exampleBoard g x quietNaN).trace = [INT_MIN]
            ∧ writtenValues (HandleOutput exampleBoard g x quietNaN).trace = [0]) := by
  have hex : ∀ (y : F32), brightness y = none → ∀ (g : Globals) (x : F32),
      loggedValues (HandleOutput exampleBoard g x y).trace = [INT_MIN]
        ∧ writtenValues (HandleOutput exampleBoard g x y).trace = [0] := by
    intro y hy g x
    have hb : brightnessOn exampleBoard y = INT_MIN := brightnessOn_none exampleBoard hy
    rw [loggedValues_HandleOutput, writtenValues_HandleOutput, hb, clampBrightness_INT_MIN]
    exact ⟨rfl, rfl⟩
  refine ⟨⟨brightness_twoPow31, brightness_plusInfinity, brightness_quietNaN⟩, ?_,
    hex _ brightness_twoPow31, hex _ brightness_plusInfinity, hex _ brightness_quietNaN⟩
  intro p g x
  rw [writtenValues_HandleOutput, brightnessOn_none p brightness_twoPow31]

end OutputHandler
